import Mathlib

/-!
# Upload middleware (`backend/middleware/upload.js`)

A shallow embedding of the upload middleware: the content-type filter, the
storage-name generator, the error translator, and the serve / delete / info
operations over an explicit filesystem state.

JavaScript strings are embedded as `String` (character lists); the Express
response object and the `next` continuation are embedded as the list of calls
a handler makes on them, in order.
-/

namespace Upload

/-! ## JavaScript string primitives -/

/-- The `String.prototype.includes` test: `search` occurs in `s` as a contiguous run. -/
def includes (s search : String) : Bool :=
  decide (search.data <:+: s.data)

/-- The `String.prototype.startsWith` test: `s` begins with `search`. -/
def startsWith (s search : String) : Bool :=
  decide (search.data <+: s.data)

/-! ## Errors, responses and effects -/

/-- An `Error` object as the middleware observes it: whether it is an instance
of `multer.MulterError`, its `code` property (absent on plain errors) and its
`message`, a string. -/
structure JsError where
  isMulterError : Bool
  code : Option String
  message : String
deriving DecidableEq, Repr

/-- The value of `new Error(message)`: a plain error with no `code`. -/
def JsError.new (message : String) : JsError :=
  { isMulterError := false, code := none, message := message }

/-- The JSON bodies this module writes: `{ error: <message> }`. -/
structure JsonBody where
  error : String
deriving DecidableEq, Repr

/-- One call made by a handler on the response object or on `next`. -/
inductive Effect where
  | status (code : Nat)
  | json (body : JsonBody)
  | sendFile (path : String)
  | next (error : JsError)
deriving DecidableEq, Repr

/-! ## File filter -/

/-- The array `allowedTypes` of `fileFilter`. -/
def allowedTypes : List String :=
  [ "application/pdf",
    "image/jpeg",
    "image/png",
    "image/jpg",
    "application/msword",
    "application/vnd.openxmlformats-officedocument.wordprocessingml.document",
    "application/vnd.ms-excel",
    "application/vnd.openxmlformats-officedocument.spreadsheetml.sheet" ]

/-- The two arguments `fileFilter` passes to its callback `cb`. -/
structure FilterCallback where
  error : Option JsError
  accept : Bool
deriving DecidableEq, Repr

/-- The function `fileFilter` (upload.js, lines 30-48), as a function of
`file.mimetype`:
`cb(null, true)` when the type is in `allowedTypes`, otherwise
`cb(new Error(...), false)`. -/
def fileFilter (mimetype : String) : FilterCallback :=
  if allowedTypes.contains mimetype then
    { error := none, accept := true }
  else
    { error := some (JsError.new ("File type " ++ mimetype ++ " is not allowed")),
      accept := false }

/-! ## Error translator -/

/-- The middleware `handleUploadError` (upload.js, lines 61-79): the calls it
makes on `res` and `next`. -/
def handleUploadError (error : JsError) : List Effect :=
  let multerBranch : Option (List Effect) :=
    if error.isMulterError then
      if error.code = some "LIMIT_FILE_SIZE" then
        some [.status 400, .json { error := "File size too large. Maximum 10MB per file." }]
      else if error.code = some "LIMIT_FILE_COUNT" then
        some [.status 400, .json { error := "Too many files. Maximum 20 files per request." }]
      else if error.code = some "LIMIT_UNEXPECTED_FILE" then
        some [.status 400, .json { error := "Unexpected file field." }]
      else none
    else none
  match multerBranch with
  | some effects => effects
  | none =>
    if includes error.message "File type" then
      [.status 400, .json { error := error.message }]
    else
      [.next error]

/-- The table of the error translator as the specification words it, first
match wins: size limit, count limit, unexpected field, type filter, anything
else. -/
def translateErrorTable (e : JsError) : List Effect :=
  if e.isMulterError = true ∧ e.code = some "LIMIT_FILE_SIZE" then
    [.status 400, .json { error := "File size too large. Maximum 10MB per file." }]
  else if e.isMulterError = true ∧ e.code = some "LIMIT_FILE_COUNT" then
    [.status 400, .json { error := "Too many files. Maximum 20 files per request." }]
  else if e.isMulterError = true ∧ e.code = some "LIMIT_UNEXPECTED_FILE" then
    [.status 400, .json { error := "Unexpected file field." }]
  else if "File type".data <:+: e.message.data then
    [.status 400, .json { error := e.message }]
  else
    [.next e]

/-- Whether a trace of effects contains a call of `next`. -/
def callsNext : List Effect → Bool
  | [] => false
  | .next _ :: _ => true
  | _ :: rest => callsNext rest

/-! ## Node's `path` module (POSIX flavour)

The functions `extname`, `basename`, `join` and `resolve` that the middleware
calls, translated loop by loop from `path.posix` of Node's standard library;
the sentinel `-1` of the loop variables is kept, so indices are integers. -/

/-- The index computation of `String.prototype.slice`: a negative index counts
from the end of the string, and every index is clamped to the string. -/
def sliceIndex (len : Nat) (k : Int) : Nat :=
  if k < 0 then (len + k).toNat else min k.toNat len

/-- The method `String.prototype.slice(start, end)` on a character list. -/
def slice (s : List Char) (start stop : Int) : List Char :=
  (s.drop (sliceIndex s.length start)).take
    (sliceIndex s.length stop - sliceIndex s.length start)

/-- The method `String.prototype.lastIndexOf` for a one-character search
string: the last index holding `c`, or `-1`. -/
def lastIndexOf (s : List Char) (c : Char) : Int :=
  if c ∈ s then (s.length : Int) - 1 - (s.reverse.indexOf c : Int) else -1

/-- The loop variables of `path.posix.extname`. -/
structure ExtState where
  startDot : Int
  startPart : Int
  end_ : Int
  matchedSlash : Bool
  preDotState : Int
deriving DecidableEq, Repr

/-- The loop of `path.posix.extname`, which scans the path from its last
character to its first. The argument is the part of the path still to scan,
reversed: its head is the character at index `i`, the length of its tail. -/
def extnameLoop : List Char → ExtState → ExtState
  | [], st => st
  | code :: rest, st =>
    let i : Int := rest.length
    if code = '/' then
      if !st.matchedSlash then
        { st with startPart := i + 1 }
      else
        extnameLoop rest st
    else
      let st1 : ExtState :=
        if st.end_ = -1 then { st with matchedSlash := false, end_ := i + 1 } else st
      let st2 : ExtState :=
        if code = '.' then
          if st1.startDot = -1 then { st1 with startDot := i }
          else if st1.preDotState ≠ 1 then { st1 with preDotState := 1 }
          else st1
        else if st1.startDot ≠ -1 then { st1 with preDotState := -1 }
        else st1
      extnameLoop rest st2

/-- The function `path.posix.extname` on a character list. -/
def extnameChars (path : List Char) : List Char :=
  let st := extnameLoop path.reverse
    { startDot := -1, startPart := 0, end_ := -1, matchedSlash := true, preDotState := 0 }
  if st.startDot = -1 ∨ st.end_ = -1 ∨ st.preDotState = 0 ∨
      (st.preDotState = 1 ∧ st.startDot = st.end_ - 1 ∧ st.startDot = st.startPart + 1) then
    []
  else
    slice path st.startDot st.end_

/-- The function `path.extname`. -/
def extname (path : String) : String :=
  ⟨extnameChars path.data⟩

/-- The loop variables of `path.posix.basename`. -/
structure BaseState where
  start : Int
  end_ : Int
  matchedSlash : Bool
  extIdx : Int
  firstNonSlashEnd : Int
deriving DecidableEq, Repr

/-- The loop of `path.posix.basename` in the branch with a non-empty suffix;
the first argument is the reversed part of the path still to scan. -/
def basenameSuffixLoop (suffix : List Char) : List Char → BaseState → BaseState
  | [], st => st
  | code :: rest, st =>
    let i : Int := rest.length
    if code = '/' then
      if !st.matchedSlash then
        { st with start := i + 1 }
      else
        basenameSuffixLoop suffix rest st
    else
      let st1 : BaseState :=
        if st.firstNonSlashEnd = -1 then
          { st with matchedSlash := false, firstNonSlashEnd := i + 1 }
        else st
      let st2 : BaseState :=
        if 0 ≤ st1.extIdx then
          if some code = suffix.get? st1.extIdx.toNat then
            if st1.extIdx - 1 = -1 then
              { st1 with extIdx := st1.extIdx - 1, end_ := i }
            else
              { st1 with extIdx := st1.extIdx - 1 }
          else
            { st1 with extIdx := -1, end_ := st1.firstNonSlashEnd }
        else st1
      basenameSuffixLoop suffix rest st2

/-- The loop of `path.posix.basename` in the branch without a suffix. -/
def basenameLoop : List Char → BaseState → BaseState
  | [], st => st
  | code :: rest, st =>
    let i : Int := rest.length
    if code = '/' then
      if !st.matchedSlash then
        { st with start := i + 1 }
      else
        basenameLoop rest st
    else if st.end_ = -1 then
      basenameLoop rest { st with matchedSlash := false, end_ := i + 1 }
    else
      basenameLoop rest st

/-- The function `path.posix.basename(path, suffix)` on character lists; the
empty suffix stands for an absent one, which the code treats alike. -/
def basenameChars (path suffix : List Char) : List Char :=
  if 0 < suffix.length ∧ suffix.length ≤ path.length then
    if suffix = path then []
    else
      let st := basenameSuffixLoop suffix path.reverse
        { start := 0, end_ := -1, matchedSlash := true,
          extIdx := (suffix.length : Int) - 1, firstNonSlashEnd := -1 }
      let stop : Int :=
        if st.start = st.end_ then st.firstNonSlashEnd
        else if st.end_ = -1 then path.length
        else st.end_
      slice path st.start stop
  else
    let st := basenameLoop path.reverse
      { start := 0, end_ := -1, matchedSlash := true, extIdx := -1, firstNonSlashEnd := -1 }
    if st.end_ = -1 then [] else slice path st.start st.end_

/-- The function `path.basename(path, suffix)`. -/
def basename (path : String) (suffix : String) : String :=
  ⟨basenameChars path.data suffix.data⟩

/-- The storage name built by `storage.filename` (upload.js, lines 20-26) from
`file.originalname`, the
value `now` of `Date.now()` and the value `random` of
`Math.round(Math.random() * 1E9)`; both numbers are non-negative integers
below `10^21`, which JavaScript prints in plain decimal. -/
def filename (originalname : String) (now random : Nat) : String :=
  let uniqueSuffix := toString now ++ "-" ++ toString random
  let extension := extname originalname
  let basename := basename originalname extension
  basename ++ "-" ++ uniqueSuffix ++ extension

/-- The loop variables of `normalizeString`. -/
structure NormState where
  res : List Char
  lastSegmentLength : Int
  lastSlash : Int
  dots : Int
deriving DecidableEq, Repr

/-- The branch of `normalizeString` that keeps a `..` segment which cannot be
resolved, when `allowAboveRoot` holds. -/
def keepDotDot (allowAboveRoot : Bool) (st : NormState) : NormState :=
  if allowAboveRoot then
    { st with
      res := if st.res.length > 0 then st.res ++ ['/', '.', '.'] else ['.', '.'],
      lastSegmentLength := 2 }
  else st

/-- One iteration of the loop of `normalizeString`, at index `i` with the
character `code`. -/
def normalizeStep (path : List Char) (allowAboveRoot : Bool) (i : Int) (code : Char)
    (st : NormState) : NormState :=
  if code = '/' then
    let st1 : NormState :=
      if st.lastSlash = i - 1 ∨ st.dots = 1 then st
      else if st.dots = 2 then
        if st.res.length < 2 ∨ st.lastSegmentLength ≠ 2 ∨
            st.res.get? (st.res.length - 1) ≠ some '.' ∨
            st.res.get? (st.res.length - 2) ≠ some '.' then
          if st.res.length > 2 then
            let lastSlashIndex := lastIndexOf st.res '/'
            if lastSlashIndex = -1 then
              { st with res := [], lastSegmentLength := 0 }
            else
              let res := slice st.res 0 lastSlashIndex
              { st with res := res,
                        lastSegmentLength := (res.length : Int) - 1 - lastIndexOf res '/' }
          else if st.res.length ≠ 0 then
            { st with res := [], lastSegmentLength := 0 }
          else keepDotDot allowAboveRoot st
        else keepDotDot allowAboveRoot st
      else
        let segment := slice path (st.lastSlash + 1) i
        { st with res := if st.res.length > 0 then st.res ++ '/' :: segment else segment,
                  lastSegmentLength := i - st.lastSlash - 1 }
    { st1 with lastSlash := i, dots := 0 }
  else if code = '.' ∧ st.dots ≠ -1 then
    { st with dots := st.dots + 1 }
  else
    { st with dots := -1 }

/-- The loop of `normalizeString` over the characters of the path, from index
`i` on. -/
def normalizeLoop (path : List Char) (allowAboveRoot : Bool) :
    List Char → Int → NormState → NormState
  | [], _, st => st
  | code :: rest, i, st =>
    normalizeLoop path allowAboveRoot rest (i + 1) (normalizeStep path allowAboveRoot i code st)

/-- The function `normalizeString` of Node's `path` module with `/` as the
separator: after the last character the loop runs once more with a slash,
unless the last character was a slash. -/
def normalizeString (path : List Char) (allowAboveRoot : Bool) : List Char :=
  let st := normalizeLoop path allowAboveRoot path 0
    { res := [], lastSegmentLength := 0, lastSlash := -1, dots := 0 }
  if path.getLast? = some '/' then st.res
  else (normalizeStep path allowAboveRoot path.length '/' st).res

/-- The function `path.posix.normalize` on a character list. -/
def normalizeChars (path : List Char) : List Char :=
  if path.length = 0 then ['.']
  else
    let isAbsolute := path.head? = some '/'
    let trailingSeparator := path.getLast? = some '/'
    let p := normalizeString path (!decide isAbsolute)
    if p.length = 0 then
      if isAbsolute then ['/'] else if trailingSeparator then ['.', '/'] else ['.']
    else
      let p1 := if trailingSeparator then p ++ ['/'] else p
      if isAbsolute then '/' :: p1 else p1

/-- The loop of `path.posix.join`: the non-empty arguments, separated by
slashes; `none` stands for `undefined`. -/
def joinArgs : List String → Option (List Char) → Option (List Char)
  | [], joined => joined
  | arg :: rest, joined =>
    if arg.length > 0 then
      match joined with
      | none => joinArgs rest (some arg.data)
      | some j => joinArgs rest (some (j ++ '/' :: arg.data))
    else joinArgs rest joined

/-- The function `path.join`. -/
def join (args : List String) : String :=
  match joinArgs args none with
  | none => "."
  | some joined => ⟨normalizeChars joined⟩

/-- The loop of `path.posix.resolve`, over the arguments from last to first
and then the working directory, until the path is absolute. -/
def resolveLoop : List String → List Char → Bool → List Char × Bool
  | [], resolvedPath, resolvedAbsolute => (resolvedPath, resolvedAbsolute)
  | path :: rest, resolvedPath, resolvedAbsolute =>
    if resolvedAbsolute then (resolvedPath, resolvedAbsolute)
    else if path.length = 0 then resolveLoop rest resolvedPath resolvedAbsolute
    else resolveLoop rest (path.data ++ '/' :: resolvedPath) (path.data.head? = some '/')

/-- The function `path.resolve`, with the working directory `cwd` of the
process made explicit. -/
def resolve (cwd : String) (args : List String) : String :=
  let r := resolveLoop (args.reverse ++ [cwd]) [] false
  let resolvedPath := normalizeString r.1 (!r.2)
  if r.2 then ⟨'/' :: resolvedPath⟩
  else if resolvedPath.length > 0 then ⟨resolvedPath⟩ else "."

/-! ## Filesystem state -/

/-- The fields of `fs.Stats` that the module reads. -/
structure Stats where
  size : Nat
  birthtime : Nat
  mtime : Nat
deriving DecidableEq, Repr

/-- What the filesystem holds at a path. -/
inductive FsNode where
  | file (stats : Stats)
  | directory (stats : Stats)
deriving DecidableEq, Repr

/-- The stats of a node. -/
def FsNode.stats : FsNode → Stats
  | .file s => s
  | .directory s => s

/-- The errors the filesystem calls of this module can throw: nothing at the
path, a directory where a file is needed, and the refusals of the operating
system (permission denied, operation not permitted, read-only filesystem,
resource busy, value too large for the stats). -/
inductive FsError where
  | ENOENT
  | EISDIR
  | EACCES
  | EPERM
  | EROFS
  | EBUSY
  | EOVERFLOW
deriving DecidableEq, Repr

/-- A filesystem state: what is found at each path, if anything, and the error,
if any, with which the operating system refuses to remove the entry at a path
or to report its stats. -/
structure FileSystem where
  nodes : String → Option FsNode
  unlinkError : String → Option FsError
  statError : String → Option FsError

/-- The call `fs.existsSync`. -/
def existsSync (fs : FileSystem) (path : String) : Bool :=
  (fs.nodes path).isSome

/-- The call `fs.unlinkSync`: removes a regular file; throws when nothing is at
the path, when the operating system refuses the removal, or when a directory
is at the path. A failed call leaves the state as it was. -/
def unlinkSync (fs : FileSystem) (path : String) : Except FsError FileSystem :=
  match fs.nodes path with
  | none => .error .ENOENT
  | some node =>
    match fs.unlinkError path with
    | some e => .error e
    | none =>
      match node with
      | .directory _ => .error .EISDIR
      | .file _ => .ok { fs with nodes := fun q => if q = path then none else fs.nodes q }

/-- The call `fs.statSync`: throws when nothing is at the path or when the
operating system refuses to report the stats. -/
def statSync (fs : FileSystem) (path : String) : Except FsError Stats :=
  match fs.nodes path with
  | none => .error .ENOENT
  | some node =>
    match fs.statError path with
    | some e => .error e
    | none => .ok node.stats

/-! ## Serving, deleting and inspecting stored files -/

/-- The process-wide values the module reads: the directory of the module
file (`__dirname`) and the working directory of the process. -/
structure Env where
  dirname : String
  cwd : String
deriving DecidableEq, Repr

/-- The constant `uploadsDir`. -/
def uploadsDir (env : Env) : String :=
  join [env.dirname, "..", "uploads"]

/-- The middleware `serveUploads` (upload.js, lines 94-112), as a function of
`req.params.filename`: the calls it makes on `res`. -/
def serveUploads (env : Env) (fs : FileSystem) (filename : String) : List Effect :=
  let filePath := join [uploadsDir env, filename]
  if !existsSync fs filePath then
    [.status 404, .json { error := "File not found" }]
  else
    let resolvedPath := resolve env.cwd [filePath]
    let resolvedUploadsDir := resolve env.cwd [uploadsDir env]
    if !startsWith resolvedPath resolvedUploadsDir then
      [.status 403, .json { error := "Access denied" }]
    else
      [.sendFile resolvedPath]

/-- A `try { body } catch (error) { return fallback }` block. -/
def tryCatch {α : Type} (body : Except FsError α) (fallback : α) : Except FsError α :=
  match body with
  | .ok a => .ok a
  | .error _ => .ok fallback

/-- The function `deleteUploadedFile` (upload.js, lines 115-127): its return
value and the filesystem
state it leaves, or the exception it raises. -/
def deleteUploadedFile (env : Env) (fs : FileSystem) (filename : String) :
    Except FsError (Bool × FileSystem) :=
  tryCatch
    (let filePath := join [uploadsDir env, filename]
     if existsSync fs filePath then
       match unlinkSync fs filePath with
       | .ok fs1 => .ok (true, fs1)
       | .error e => .error e
     else
       .ok (false, fs))
    (false, fs)

/-- The record `getFileInfo` returns. -/
structure FileInfo where
  filename : String
  size : Nat
  createdAt : Nat
  modifiedAt : Nat
deriving DecidableEq, Repr

/-- The function `getFileInfo` (upload.js, lines 130-147): its return value
(`none` for `null`), or the
exception it raises. -/
def getFileInfo (env : Env) (fs : FileSystem) (filename : String) :
    Except FsError (Option FileInfo) :=
  tryCatch
    (let filePath := join [uploadsDir env, filename]
     if existsSync fs filePath then
       match statSync fs filePath with
       | .ok stats =>
         .ok (some { filename := filename, size := stats.size,
                     createdAt := stats.birthtime, modifiedAt := stats.mtime })
       | .error e => .error e
     else
       .ok none)
    none

/-- Whether a trace of effects contains a call of `res.sendFile`. -/
def sendsFile : List Effect → Bool
  | [] => false
  | .sendFile _ :: _ => true
  | _ :: rest => sendsFile rest

/-- The components of a path: its maximal runs of characters other than `/`. -/
def componentsFrom : List Char → List Char → List (List Char)
  | [], current => if current = [] then [] else [current.reverse]
  | c :: rest, current =>
    if c = '/' then
      if current = [] then componentsFrom rest [] else current.reverse :: componentsFrom rest []
    else componentsFrom rest (c :: current)

/-- Containment by path components: `path` is `dir` or a descendant of it. -/
def isWithin (dir path : String) : Bool :=
  (componentsFrom dir.data []).isPrefixOf (componentsFrom path.data [])

/-! ## Random component of the storage name -/

/-- The function `Math.round`: the nearest integer, a tie going up. -/
def mathRound (y : ℚ) : ℤ :=
  ⌊y + 1 / 2⌋

/-- Rounding to the nearest integer, a tie going to the even one. -/
def roundHalfEven (y : ℚ) : ℤ :=
  let f := ⌊y⌋
  if y - f < 1 / 2 then f
  else if 1 / 2 < y - f then f + 1
  else if f % 2 = 0 then f
  else f + 1

/-- The spacing of the binary64 numbers around `q`: `2 ^ (e - 52)` with `e`
the binary exponent of `q`, and `e = -1022` in the subnormal range. -/
def ulp (q : ℚ) : ℚ :=
  (2 : ℚ) ^ (max (Int.log 2 |q|) (-1022) - 52)

/-- The binary64 number nearest to `q`, ties to even: the rounding every
JavaScript arithmetic operation applies to its exact result (below the
overflow threshold). -/
def roundToDouble (q : ℚ) : ℚ :=
  roundHalfEven (q / ulp q) * ulp q

/-- The expression `Math.round(Math.random() * 1E9)`, as a function of the
value `x` of `Math.random()`. -/
def randomSuffix (x : ℚ) : ℤ :=
  mathRound (roundToDouble (x * 1000000000))

/-! ## Auxiliary notions for the statements -/

/-- A path part that ends a scan: nothing, or something that starts with a slash. -/
def Stops (P : List Char) : Prop := P = [] ∨ ∃ t, P = '/' :: t

/-- The values of the loop variables of `extname` before its loop. -/
def extInit : ExtState :=
  { startDot := -1, startPart := 0, end_ := -1, matchedSlash := true, preDotState := 0 }

/-- The final path component of a path: what is left of it once trailing
slashes and everything up to the last remaining slash are removed. -/
def IsFinalComponent (o comp : List Char) : Prop :=
  ∃ p s, o = p ++ (comp ++ s) ∧ (∀ c ∈ s, c = '/') ∧ (∀ c ∈ comp, c ≠ '/') ∧
    (p = [] ∨ p.getLast? = some '/') ∧ (comp = [] → p = [])

/-- The value of a decimal numeral. -/
def decimalValue (s : List Char) (acc : Nat) : Nat :=
  s.foldl (fun a c => 10 * a + (c.toNat - 48)) acc

/-- A deployment with the module in `/app/backend/middleware`. -/
def sampleEnv : Env :=
  { dirname := "/app/backend/middleware", cwd := "/app" }

/-- A filesystem state holding a single regular file at the given path, which
the operating system lets be removed and inspected. -/
def singleFile (path : String) : FileSystem :=
  { nodes := fun q =>
      if q = path then some (.file { size := 1024, birthtime := 1, mtime := 2 }) else none,
    unlinkError := fun _ => none,
    statError := fun _ => none }

/-- The filesystem state with nothing in it. -/
def emptyFs : FileSystem :=
  { nodes := fun _ => none, unlinkError := fun _ => none, statError := fun _ => none }

/-- A filesystem state holding a single regular file at the given path, in a
directory without write permission: its removal fails with `EACCES`. -/
def protectedFile (path : String) : FileSystem :=
  { nodes := fun q =>
      if q = path then some (.file { size := 1024, birthtime := 1, mtime := 2 }) else none,
    unlinkError := fun q => if q = path then some .EACCES else none,
    statError := fun _ => none }

/-- A filesystem state holding a single regular file at the given path, whose
size the stats cannot hold: reading them fails with `EOVERFLOW`. -/
def unreadableFile (path : String) : FileSystem :=
  { nodes := fun q =>
      if q = path then some (.file { size := 1024, birthtime := 1, mtime := 2 }) else none,
    unlinkError := fun _ => none,
    statError := fun q => if q = path then some .EOVERFLOW else none }

/-! ## Scans of `extname` and `basename` -/

theorem split_run (p : Char → Prop) [DecidablePred p] (l : List Char) :
    ∃ a b, l = a ++ b ∧ (∀ c ∈ a, p c) ∧ (b = [] ∨ ∃ h t, b = h :: t ∧ ¬ p h) := by
  induction l with
  | nil => exact ⟨[], [], rfl, by simp, Or.inl rfl⟩
  | cons x xs ih =>
    by_cases hx : p x
    · obtain ⟨a, b, hab, ha, hb⟩ := ih
      refine ⟨x :: a, b, by simp [hab], ?_, hb⟩
      intro c hc
      rcases List.mem_cons.1 hc with h | h
      · exact h ▸ hx
      · exact ha c h
    · exact ⟨[], x :: xs, rfl, by simp, Or.inr ⟨x, xs, rfl, hx⟩⟩

theorem extnameLoop_skip (S X : List Char) (hS : ∀ c ∈ S, c = '/') (sd sp en pd : Int) :
    extnameLoop (S ++ X) ⟨sd, sp, en, true, pd⟩ = extnameLoop X ⟨sd, sp, en, true, pd⟩ := by
  induction S with
  | nil => rfl
  | cons c S ih =>
    have hc : c = '/' := hS c (List.mem_cons_self _ _)
    subst hc
    simp only [List.cons_append, extnameLoop]
    simpa using ih (fun c h => hS c (List.mem_cons_of_mem _ h))

theorem extnameLoop_plain (A X : List Char) (hA : ∀ c ∈ A, c ≠ '/' ∧ c ≠ '.')
    (sp en pd : Int) (ms : Bool) (hen : en ≠ -1) :
    extnameLoop (A ++ X) ⟨-1, sp, en, ms, pd⟩ = extnameLoop X ⟨-1, sp, en, ms, pd⟩ := by
  induction A with
  | nil => rfl
  | cons c A ih =>
    obtain ⟨h1, h2⟩ := hA c (List.mem_cons_self _ _)
    simp only [List.cons_append, extnameLoop, h1, h2, hen, if_false, ne_eq, not_true_eq_false]
    exact ih (fun c h => hA c (List.mem_cons_of_mem _ h))

theorem extnameLoop_pre (B X : List Char) (hB : ∀ c ∈ B, c ≠ '/')
    (sd sp en pd : Int) (ms : Bool) (hen : en ≠ -1) (hsd : sd ≠ -1) :
    ∃ pd', extnameLoop (B ++ X) ⟨sd, sp, en, ms, pd⟩ = extnameLoop X ⟨sd, sp, en, ms, pd'⟩ ∧
      (B = [] → pd' = pd) := by
  induction B generalizing pd with
  | nil => exact ⟨pd, rfl, fun _ => rfl⟩
  | cons c B ih =>
    have h1 := hB c (List.mem_cons_self _ _)
    have hB' : ∀ c ∈ B, c ≠ '/' := fun c h => hB c (List.mem_cons_of_mem _ h)
    by_cases hdot : c = '.'
    · subst hdot
      by_cases hpd : pd = 1
      · obtain ⟨pd', h, _⟩ := ih hB' pd
        refine ⟨pd', ?_, by simp⟩
        simp only [List.cons_append, extnameLoop, hen, hsd, hpd, if_false, ne_eq,
          not_true_eq_false]
        simpa [hpd] using h
      · obtain ⟨pd', h, _⟩ := ih hB' 1
        refine ⟨pd', ?_, by simp⟩
        simp only [List.cons_append, extnameLoop, hen, hsd, hpd, if_false, ne_eq,
          not_true_eq_false, not_false_eq_true, if_true]
        simpa using h
    · obtain ⟨pd', h, _⟩ := ih hB' (-1)
      refine ⟨pd', ?_, by simp⟩
      simp only [List.cons_append, extnameLoop, h1, hdot, hen, hsd, if_false, ne_eq,
          not_true_eq_false, not_false_eq_true, if_true]
      simpa using h

theorem extnameLoop_stop (P : List Char) (hP : Stops P) (sd en pd : Int) :
    extnameLoop P ⟨sd, 0, en, false, pd⟩ = ⟨sd, P.length, en, false, pd⟩ := by
  rcases hP with rfl | ⟨t, rfl⟩
  · rfl
  · simp [extnameLoop]

theorem extnameLoop_first (c : Char) (X : List Char) (h1 : c ≠ '/') (h2 : c ≠ '.')
    (sp pd : Int) (ms : Bool) :
    extnameLoop (c :: X) ⟨-1, sp, -1, ms, pd⟩
      = extnameLoop X ⟨-1, sp, (X.length : Int) + 1, false, pd⟩ := by
  simp [extnameLoop, h1, h2]

theorem extnameLoop_dot (X : List Char) (sp en pd : Int) (ms : Bool) (hen : en ≠ -1) :
    extnameLoop ('.' :: X) ⟨-1, sp, en, ms, pd⟩
      = extnameLoop X ⟨(X.length : Int), sp, en, ms, pd⟩ := by
  simp [extnameLoop, hen]

theorem extnameLoop_dot_first (X : List Char) (sp pd : Int) (ms : Bool) :
    extnameLoop ('.' :: X) ⟨-1, sp, -1, ms, pd⟩
      = extnameLoop X ⟨(X.length : Int), sp, (X.length : Int) + 1, false, pd⟩ := by
  simp [extnameLoop]

theorem extnameLoop_undotted (S A P : List Char) (hS : ∀ c ∈ S, c = '/')
    (hA : ∀ c ∈ A, c ≠ '/' ∧ c ≠ '.') (hne : A ≠ []) (hP : Stops P) :
    (extnameLoop (S ++ (A ++ P)) extInit).startDot = -1 := by
  rw [extInit, extnameLoop_skip S _ hS]
  cases A with
  | nil => exact absurd rfl hne
  | cons a A =>
    obtain ⟨h1, h2⟩ := hA a (List.mem_cons_self _ _)
    rw [List.cons_append, extnameLoop_first a _ h1 h2,
      extnameLoop_plain A P (fun c h => hA c (List.mem_cons_of_mem _ h)) _ _ _ _ (by omega),
      extnameLoop_stop P hP]

theorem extnameLoop_dotted (S A B P : List Char) (hS : ∀ c ∈ S, c = '/')
    (hA : ∀ c ∈ A, c ≠ '/' ∧ c ≠ '.') (hB : ∀ c ∈ B, c ≠ '/') (hP : Stops P) :
    ∃ pd', extnameLoop (S ++ (A ++ '.' :: (B ++ P))) extInit
        = ⟨(B.length + P.length : Nat), P.length, (A.length + 1 + B.length + P.length : Nat),
            false, pd'⟩ ∧ (B = [] → pd' = 0) := by
  rw [extInit, extnameLoop_skip S _ hS]
  cases A with
  | nil =>
    obtain ⟨pd', h, hpd⟩ := extnameLoop_pre B P hB ((B ++ P).length : Int) 0
      (((B ++ P).length : Int) + 1) 0 false (by omega) (by omega)
    refine ⟨pd', ?_, hpd⟩
    rw [List.nil_append, extnameLoop_dot_first, h, extnameLoop_stop P hP]
    simp
    omega
  | cons a A =>
    obtain ⟨h1, h2⟩ := hA a (List.mem_cons_self _ _)
    obtain ⟨pd', h, hpd⟩ := extnameLoop_pre B P hB ((B ++ P).length : Int) 0
      (((A ++ '.' :: (B ++ P)).length : Int) + 1) 0 false (by omega) (by omega)
    refine ⟨pd', ?_, hpd⟩
    rw [List.cons_append, extnameLoop_first a _ h1 h2,
      extnameLoop_plain A _ (fun c h => hA c (List.mem_cons_of_mem _ h)) _ _ _ _ (by omega),
      extnameLoop_dot _ _ _ _ _ (by omega), h, extnameLoop_stop P hP]
    simp
    omega

theorem slice_mid (p m s : List Char) (a b : Int) (ha : a = p.length)
    (hb : b = (p.length + m.length : Nat)) :
    slice (p ++ (m ++ s)) a b = m := by
  subst ha hb
  have h1 : sliceIndex (p ++ (m ++ s)).length (p.length : Int) = p.length := by
    simp [sliceIndex]
  have h2 : sliceIndex (p ++ (m ++ s)).length ((p.length + m.length : Nat) : Int)
      = p.length + m.length := by
    simp only [sliceIndex, List.length_append]
    rw [if_neg (by omega)]
    simp
    omega
  rw [slice, h1, h2]
  simp

theorem extnameChars_cases (o : List Char) :
    extnameChars o = [] ∨
    ∃ S A B P, o.reverse = S ++ (A ++ '.' :: (B ++ P)) ∧ (∀ c ∈ S, c = '/') ∧
      (∀ c ∈ A, c ≠ '/' ∧ c ≠ '.') ∧ (∀ c ∈ B, c ≠ '/') ∧ B ≠ [] ∧ Stops P ∧
      extnameChars o = '.' :: A.reverse := by
  obtain ⟨S, R1, hR, hS, hR1⟩ := split_run (fun c => c = '/') o.reverse
  have hinit : extnameChars o =
      (let st := extnameLoop o.reverse extInit
       if st.startDot = -1 ∨ st.end_ = -1 ∨ st.preDotState = 0 ∨
          (st.preDotState = 1 ∧ st.startDot = st.end_ - 1 ∧ st.startDot = st.startPart + 1)
       then [] else slice o st.startDot st.end_) := rfl
  rcases hR1 with rfl | ⟨h, t, rfl, hh⟩
  · left
    rw [hinit, hR]
    have := extnameLoop_skip S [] hS (-1) 0 (-1) 0
    simp only [extInit, this]
    simp [extnameLoop]
  · obtain ⟨C, P, hC, hCs, hP⟩ := split_run (fun c => c ≠ '/') (h :: t)
    have hPs : Stops P := by
      rcases hP with rfl | ⟨x, y, rfl, hx⟩
      · exact Or.inl rfl
      · exact Or.inr ⟨y, by simp at hx; simp [hx]⟩
    have hCne : C ≠ [] := by
      rintro rfl
      rcases hP with rfl | ⟨x, y, rfl, hx⟩
      · simp at hC
      · simp at hC hx
        exact hh (hC.1.trans hx)
    obtain ⟨A, D, hD, hA, hD'⟩ := split_run (fun c => c ≠ '.') C
    have hA' : ∀ c ∈ A, c ≠ '/' ∧ c ≠ '.' := fun c hc =>
      ⟨hCs c (by rw [hD]; exact List.mem_append_left _ hc), hA c hc⟩
    rcases hD' with rfl | ⟨x, B, rfl, hx⟩
    · left
      rw [List.append_nil] at hD
      subst hD
      have := extnameLoop_undotted S C P hS hA' hCne hPs
      rw [hinit, hR, hC]
      simp [this]
    · have hx' : x = '.' := by simpa using hx
      subst hx'
      have hB : ∀ c ∈ B, c ≠ '/' := fun c hc =>
        hCs c (by rw [hD]; exact List.mem_append_right _ (List.mem_cons_of_mem _ hc))
      obtain ⟨pd', hloop, hpd⟩ := extnameLoop_dotted S A B P hS hA' hB hPs
      have hrev : o.reverse = S ++ (A ++ '.' :: (B ++ P)) := by
        rw [hR, hC, hD]; simp
      have ho : o = P.reverse ++ (B.reverse ++ (('.' :: A.reverse) ++ S.reverse)) := by
        have := congrArg List.reverse hrev
        simpa using this
      by_cases hBne : B = []
      · left
        rw [hinit, hrev, hloop]
        simp [hpd hBne]
      · by_cases hcond : pd' = 0 ∨ (pd' = 1 ∧ A = [] ∧ B.length = 1)
        · left
          rw [hinit, hrev, hloop]
          simp only
          rw [if_pos]
          rcases hcond with h0 | ⟨h1, h2, h3⟩
          · exact Or.inr (Or.inr (Or.inl h0))
          · refine Or.inr (Or.inr (Or.inr ⟨h1, ?_, ?_⟩))
            · subst h2; simp; omega
            · subst h2; simp; omega
        · right
          refine ⟨S, A, B, P, hrev, hS, hA', hB, hBne, hPs, ?_⟩
          rw [hinit, hrev, hloop]
          simp only
          rw [if_neg]
          · have hsl := slice_mid (P.reverse ++ B.reverse) ('.' :: A.reverse) S.reverse
              ((B.length + P.length : Nat) : Int) ((A.length + 1 + B.length + P.length : Nat) : Int)
              (by simp; omega) (by simp; omega)
            rw [ho]
            simpa using hsl
          · rintro (h | h | h | ⟨h1, h2, h3⟩)
            · omega
            · omega
            · exact hcond (Or.inl h)
            · refine hcond (Or.inr ⟨h1, ?_, ?_⟩)
              · have : A.length = 0 := by push_cast at h2; omega
                exact List.length_eq_zero.1 this
              · push_cast at h3; omega

theorem basenameLoop_skip (S X : List Char) (hS : ∀ c ∈ S, c = '/') (st en ei fn : Int) :
    basenameLoop (S ++ X) ⟨st, en, true, ei, fn⟩ = basenameLoop X ⟨st, en, true, ei, fn⟩ := by
  induction S with
  | nil => rfl
  | cons c S ih =>
    have hc : c = '/' := hS c (List.mem_cons_self _ _)
    subst hc
    simp only [List.cons_append, basenameLoop]
    simpa using ih (fun c h => hS c (List.mem_cons_of_mem _ h))

theorem basenameLoop_plain (C X : List Char) (hC : ∀ c ∈ C, c ≠ '/')
    (st en ei fn : Int) (ms : Bool) (hen : en ≠ -1) :
    basenameLoop (C ++ X) ⟨st, en, ms, ei, fn⟩ = basenameLoop X ⟨st, en, ms, ei, fn⟩ := by
  induction C with
  | nil => rfl
  | cons c C ih =>
    have h1 := hC c (List.mem_cons_self _ _)
    simp only [List.cons_append, basenameLoop, h1, hen, if_false]
    exact ih (fun c h => hC c (List.mem_cons_of_mem _ h))

theorem basenameLoop_stop (P : List Char) (hP : Stops P) (en ei fn : Int) :
    basenameLoop P ⟨0, en, false, ei, fn⟩ = ⟨P.length, en, false, ei, fn⟩ := by
  rcases hP with rfl | ⟨t, rfl⟩
  · rfl
  · simp [basenameLoop]

theorem basenameChars_component (o S C P : List Char) (ho : o.reverse = S ++ (C ++ P))
    (hS : ∀ c ∈ S, c = '/') (hC : ∀ c ∈ C, c ≠ '/') (hne : C ≠ []) (hP : Stops P) :
    basenameChars o [] = C.reverse := by
  have ho' : o = P.reverse ++ (C.reverse ++ S.reverse) := by
    have := congrArg List.reverse ho
    simpa using this
  have hloop : basenameLoop o.reverse ⟨0, -1, true, -1, -1⟩
      = ⟨P.length, (P.length + C.length : Nat), false, -1, -1⟩ := by
    rw [ho, basenameLoop_skip S _ hS]
    cases C with
    | nil => exact absurd rfl hne
    | cons c C =>
      have h1 := hC c (List.mem_cons_self _ _)
      have step : basenameLoop (c :: (C ++ P)) ⟨0, -1, true, -1, -1⟩
          = basenameLoop (C ++ P) ⟨0, ((C ++ P).length : Int) + 1, false, -1, -1⟩ := by
        simp [basenameLoop, h1]
      rw [List.cons_append, step,
        basenameLoop_plain C P (fun c h => hC c (List.mem_cons_of_mem _ h)) _ _ _ _ _ (by omega),
        basenameLoop_stop P hP]
      simp
      omega
  have hdef : basenameChars o [] =
      (let st := basenameLoop o.reverse ⟨0, -1, true, -1, -1⟩
       if st.end_ = -1 then [] else slice o st.start st.end_) := by
    simp [basenameChars]
  rw [hdef, hloop]
  simp only
  rw [if_neg (by omega), ho']
  exact slice_mid P.reverse C.reverse S.reverse _ _ (by simp) (by simp)

theorem basenameSuffixLoop_skip (E S X : List Char) (hS : ∀ c ∈ S, c = '/')
    (st en ei fn : Int) :
    basenameSuffixLoop E (S ++ X) ⟨st, en, true, ei, fn⟩
      = basenameSuffixLoop E X ⟨st, en, true, ei, fn⟩ := by
  induction S with
  | nil => rfl
  | cons c S ih =>
    have hc : c = '/' := hS c (List.mem_cons_self _ _)
    subst hc
    simp only [List.cons_append, basenameSuffixLoop]
    simpa using ih (fun c h => hS c (List.mem_cons_of_mem _ h))

theorem basenameSuffixLoop_rest (E B X : List Char) (hB : ∀ c ∈ B, c ≠ '/')
    (st en fn : Int) (ms : Bool) (hfn : fn ≠ -1) :
    basenameSuffixLoop E (B ++ X) ⟨st, en, ms, -1, fn⟩
      = basenameSuffixLoop E X ⟨st, en, ms, -1, fn⟩ := by
  induction B with
  | nil => rfl
  | cons c B ih =>
    have h1 := hB c (List.mem_cons_self _ _)
    simp only [List.cons_append, basenameSuffixLoop, h1, hfn, if_false]
    simpa using ih (fun c h => hB c (List.mem_cons_of_mem _ h))

theorem basenameSuffixLoop_stop (E P : List Char) (hP : Stops P) (en ei fn : Int) :
    basenameSuffixLoop E P ⟨0, en, false, ei, fn⟩ = ⟨P.length, en, false, ei, fn⟩ := by
  rcases hP with rfl | ⟨t, rfl⟩
  · rfl
  · simp [basenameSuffixLoop]

theorem basenameSuffixLoop_match (E X : List Char) (hX : ∀ c ∈ X, c ≠ '/') (hne : X ≠ []) :
    ∀ (Z rest : List Char) (st en fn : Int) (ms : Bool), E = X.reverse ++ Z →
      ∃ fn', fn' ≠ -1 ∧
        basenameSuffixLoop E (X ++ rest) ⟨st, en, ms, (X.length : Int) - 1, fn⟩
          = basenameSuffixLoop E rest
              ⟨st, rest.length, if fn = -1 then false else ms, -1, fn'⟩ := by
  induction X with
  | nil => exact absurd rfl hne
  | cons x X ih =>
    intro Z rest st en fn ms hE
    have h1 := hX x (List.mem_cons_self _ _)
    have hget : E.get? X.length = some x := by
      rw [hE, List.get?_eq_getElem?, List.reverse_cons, List.append_assoc,
        List.getElem?_append_right (by simp)]
      simp
    have hidx : ((((x :: X).length : Nat) : Int) - 1).toNat = X.length := by
      simp
    have hnn : (0 : Int) ≤ (((x :: X).length : Nat) : Int) - 1 := by
      simp
    by_cases hX0 : X = []
    · subst hX0
      by_cases hfn : fn = -1
      · refine ⟨(rest.length : Int) + 1, by omega, ?_⟩
        simp only [List.cons_append, List.nil_append, basenameSuffixLoop, h1, hfn, if_false,
          if_true]
        simp at hget
        simp [hget]
      · refine ⟨fn, hfn, ?_⟩
        simp only [List.cons_append, List.nil_append, basenameSuffixLoop, h1, hfn, if_false]
        simp at hget
        simp [hget]
    · have hE' : E = X.reverse ++ ([x] ++ Z) := by rw [hE]; simp
      have hlen : (0 : Int) < X.length := by
        have := List.length_pos.2 hX0
        omega
      have hneq : ¬ ((((x :: X).length : Nat) : Int) - 1 - 1 = -1) := by
        simp only [List.length_cons]
        push_cast
        omega
      by_cases hfn : fn = -1
      · obtain ⟨fn', hfn', h⟩ := ih (fun c h => hX c (List.mem_cons_of_mem _ h)) hX0
          ([x] ++ Z) rest st en (((X ++ rest).length : Int) + 1) false hE'
        refine ⟨fn', hfn', ?_⟩
        rw [if_neg (by omega)] at h
        simp only [List.cons_append, basenameSuffixLoop, h1, hfn, if_false, if_true]
        rw [if_pos hnn, hidx, hget, if_pos rfl, if_neg hneq]
        simpa using h
      · obtain ⟨fn', hfn', h⟩ := ih (fun c h => hX c (List.mem_cons_of_mem _ h)) hX0
          ([x] ++ Z) rest st en fn ms hE'
        refine ⟨fn', hfn', ?_⟩
        rw [if_neg hfn] at h
        simp only [List.cons_append, basenameSuffixLoop, h1, hfn, if_false]
        rw [if_pos hnn, hidx, hget, if_pos rfl, if_neg hneq]
        simpa using h

theorem basenameChars_suffix (o S A B P : List Char)
    (ho : o.reverse = S ++ (A ++ '.' :: (B ++ P)))
    (hS : ∀ c ∈ S, c = '/') (hA : ∀ c ∈ A, c ≠ '/' ∧ c ≠ '.') (hB : ∀ c ∈ B, c ≠ '/')
    (hne : B ≠ []) (hP : Stops P) :
    basenameChars o ('.' :: A.reverse) = B.reverse := by
  have ho' : o = P.reverse ++ (B.reverse ++ (('.' :: A.reverse) ++ S.reverse)) := by
    have := congrArg List.reverse ho
    simpa using this
  have hBlen : 0 < B.length := List.length_pos.2 hne
  have holen : o.length = P.length + B.length + (A.length + 1) + S.length := by
    rw [ho']; simp; omega
  have hX : ∀ c ∈ A ++ ['.'], c ≠ '/' := by
    intro c hc
    rcases List.mem_append.1 hc with h | h
    · exact (hA c h).1
    · simp at h; subst h; decide
  obtain ⟨fn', hfn', hm⟩ := basenameSuffixLoop_match ('.' :: A.reverse) (A ++ ['.']) hX
    (by simp) [] (B ++ P) 0 (-1) (-1) true (by simp)
  have hloop : basenameSuffixLoop ('.' :: A.reverse) o.reverse
      ⟨0, -1, true, ((('.' :: A.reverse).length : Nat) : Int) - 1, -1⟩
      = ⟨P.length, (P.length + B.length : Nat), false, -1, fn'⟩ := by
    rw [ho, basenameSuffixLoop_skip _ S _ hS]
    have e1 : A ++ '.' :: (B ++ P) = (A ++ ['.']) ++ (B ++ P) := by simp
    have e2 : (((('.' :: A.reverse).length : Nat) : Int) - 1) = ((A ++ ['.']).length : Int) - 1 := by
      simp
    rw [e1, e2, hm, if_pos rfl, basenameSuffixLoop_rest _ B P hB _ _ _ _ hfn',
      basenameSuffixLoop_stop _ P hP]
    simp
    omega
  have hneq : ('.' :: A.reverse) ≠ o := by
    intro h
    have := congrArg List.length h
    rw [holen] at this
    simp at this
    omega
  have hcond : 0 < ('.' :: A.reverse).length ∧ ('.' :: A.reverse).length ≤ o.length := by
    rw [holen]; simp; omega
  rw [basenameChars, if_pos hcond, if_neg hneq]
  simp only
  rw [hloop]
  simp only
  rw [if_neg (by push_cast; omega), if_neg (by push_cast; omega)]
  conv_lhs => rw [ho']
  exact slice_mid P.reverse B.reverse _ _ _ (by simp) (by simp)

theorem stops_reverse (P : List Char) (hP : Stops P) :
    P.reverse = [] ∨ P.reverse.getLast? = some '/' := by
  rcases hP with rfl | ⟨t, rfl⟩
  · exact Or.inl rfl
  · right; simp

theorem basenameChars_final (o : List Char) : IsFinalComponent o (basenameChars o []) := by
  obtain ⟨S, R1, hR, hS, hR1⟩ := split_run (fun c => c = '/') o.reverse
  rcases hR1 with rfl | ⟨h, t, rfl, hh⟩
  · have ho : o = S.reverse := by
      have := congrArg List.reverse hR
      simpa using this
    have hloop : basenameLoop o.reverse ⟨0, -1, true, -1, -1⟩ = ⟨0, -1, true, -1, -1⟩ := by
      rw [hR, basenameLoop_skip S [] hS]; rfl
    have hb : basenameChars o [] = [] := by
      simp [basenameChars, hloop]
    rw [hb]
    exact ⟨[], o, by simp, by rw [ho]; simpa using hS, by simp, Or.inl rfl, fun _ => rfl⟩
  · obtain ⟨C, P, hC, hCs, hP⟩ := split_run (fun c => c ≠ '/') (h :: t)
    have hPs : Stops P := by
      rcases hP with rfl | ⟨x, y, rfl, hx⟩
      · exact Or.inl rfl
      · exact Or.inr ⟨y, by simp at hx; simp [hx]⟩
    have hCne : C ≠ [] := by
      rintro rfl
      rcases hP with rfl | ⟨x, y, rfl, hx⟩
      · simp at hC
      · simp at hC hx
        exact hh (hC.1.trans hx)
    have hrev : o.reverse = S ++ (C ++ P) := by rw [hR, hC]
    have ho : o = P.reverse ++ (C.reverse ++ S.reverse) := by
      have := congrArg List.reverse hrev
      simpa using this
    rw [basenameChars_component o S C P hrev hS hCs hCne hPs]
    refine ⟨P.reverse, S.reverse, ho, by simpa using hS, by simpa using hCs,
      stops_reverse P hPs, ?_⟩
    intro h0
    exact absurd (List.reverse_eq_nil_iff.1 h0) hCne

theorem basenameChars_extnameChars (o : List Char) :
    basenameChars o (extnameChars o) ++ extnameChars o = basenameChars o [] := by
  rcases extnameChars_cases o with h | ⟨S, A, B, P, hrev, hS, hA, hB, hBne, hP, hE⟩
  · rw [h, List.append_nil]
  · rw [hE, basenameChars_suffix o S A B P hrev hS hA hB hBne hP]
    have hC : ∀ c ∈ A ++ '.' :: B, c ≠ '/' := by
      intro c hc
      rcases List.mem_append.1 hc with h | h
      · exact (hA c h).1
      · rcases List.mem_cons.1 h with h | h
        · subst h; decide
        · exact hB c h
    have := basenameChars_component o S (A ++ '.' :: B) P (by rw [hrev]; simp) hS hC (by simp) hP
    rw [this]
    simp

theorem extnameChars_shape (o : List Char) :
    extnameChars o = [] ∨
      ∃ A, extnameChars o = '.' :: A ∧ (∀ c ∈ A, c ≠ '/' ∧ c ≠ '.') := by
  rcases extnameChars_cases o with h | ⟨S, A, B, P, _, _, hA, _, _, _, hE⟩
  · exact Or.inl h
  · exact Or.inr ⟨A.reverse, hE, by simpa using hA⟩

theorem digitChar_facts : ∀ k, k < 10 →
    Nat.digitChar k ≠ '-' ∧ (Nat.digitChar k).toNat - 48 = k := by
  decide

theorem toDigitsCore_value (fuel : Nat) : ∀ (n : Nat) (ds : List Char), n < fuel →
    decimalValue (Nat.toDigitsCore 10 fuel n ds) 0 = decimalValue ds n := by
  induction fuel with
  | zero => intro n ds h; omega
  | succ fuel ih =>
    intro n ds h
    have hd := (digitChar_facts (n % 10) (Nat.mod_lt _ (by decide))).2
    by_cases h0 : n / 10 = 0
    · simp only [Nat.toDigitsCore, h0, if_true]
      simp only [decimalValue, List.foldl_cons, hd]
      congr 1
      omega
    · simp only [Nat.toDigitsCore, h0, if_false]
      rw [ih (n / 10) _ (by omega)]
      simp only [decimalValue, List.foldl_cons, hd]
      congr 1
      omega

theorem toDigitsCore_no_dash (fuel : Nat) : ∀ (n : Nat) (ds : List Char),
    '-' ∉ ds → '-' ∉ Nat.toDigitsCore 10 fuel n ds := by
  induction fuel with
  | zero => intro n ds h; simpa [Nat.toDigitsCore] using h
  | succ fuel ih =>
    intro n ds h
    have hd := (digitChar_facts (n % 10) (Nat.mod_lt _ (by decide))).1
    have h' : '-' ∉ Nat.digitChar (n % 10) :: ds := by
      intro hm
      rcases List.mem_cons.1 hm with e | e
      · exact hd e.symm
      · exact h e
    by_cases h0 : n / 10 = 0
    · simpa only [Nat.toDigitsCore, h0, if_true] using h'
    · simp only [Nat.toDigitsCore, h0, if_false]
      exact ih _ _ h'

theorem toString_data_injective (a b : Nat) (h : (toString a).data = (toString b).data) :
    a = b := by
  have ha := toDigitsCore_value (a + 1) a [] (by omega)
  have hb := toDigitsCore_value (b + 1) b [] (by omega)
  have h' : Nat.toDigits 10 a = Nat.toDigits 10 b := h
  unfold Nat.toDigits at h'
  rw [h'] at ha
  rw [ha] at hb
  simpa [decimalValue] using hb

theorem toString_no_dash (a : Nat) : '-' ∉ (toString a).data :=
  toDigitsCore_no_dash (a + 1) a [] (by simp)

theorem append_cons_unique (x : Char) : ∀ (a b c d : List Char), x ∉ a → x ∉ c →
    a ++ x :: b = c ++ x :: d → a = c ∧ b = d := by
  intro a
  induction a with
  | nil =>
    intro b c d _ hc h
    cases c with
    | nil => simpa using h
    | cons y c =>
      simp at h
      exact absurd (by simp [h.1]) hc
  | cons y a ih =>
    intro b c d ha hc h
    cases c with
    | nil =>
      simp at h
      exact absurd (by simp [h.1]) ha
    | cons z c =>
      simp at h
      obtain ⟨h1, h2⟩ := ih b c d (fun m => ha (List.mem_cons_of_mem _ m))
        (fun m => hc (List.mem_cons_of_mem _ m)) h.2
      exact ⟨by rw [h.1, h1], h2⟩

theorem filename_data (o : String) (t r : Nat) :
    (filename o t r).data = (basename o (extname o)).data ++
      ('-' :: ((toString t).data ++ '-' :: (toString r).data)) ++ (extname o).data := by
  simp [filename, String.data_append]

/-! ## Binary64 rounding -/

theorem ulp_pos (q : ℚ) : 0 < ulp q := by
  unfold ulp
  positivity

theorem roundHalfEven_nonneg (y : ℚ) (h : 0 ≤ y) : 0 ≤ roundHalfEven y := by
  have hf : 0 ≤ ⌊y⌋ := Int.floor_nonneg.2 h
  unfold roundHalfEven
  simp only
  split_ifs <;> omega

theorem roundHalfEven_le (y : ℚ) (N : ℤ) (h : y ≤ N) : roundHalfEven y ≤ N := by
  have hf : ⌊y⌋ ≤ N := by
    have h' : (⌊y⌋ : ℚ) ≤ (N : ℚ) := (Int.floor_le y).trans h
    exact_mod_cast h'
  have key : ¬ (y - ⌊y⌋ < 1 / 2) → ⌊y⌋ + 1 ≤ N := by
    intro hlt
    by_contra hcon
    have hN : N = ⌊y⌋ := by omega
    have : y ≤ (⌊y⌋ : ℚ) := by rw [← hN]; exact h
    apply hlt
    linarith
  unfold roundHalfEven
  simp only
  split_ifs with h1 h2 h3
  · exact hf
  · exact key h1
  · exact hf
  · exact key h1

theorem roundHalfEven_intCast (n : ℤ) : roundHalfEven (n : ℚ) = n := by
  unfold roundHalfEven
  simp

theorem log_two_eq (q : ℚ) (k : ℤ) (hq : 0 < q) (h1 : (2 : ℚ) ^ k ≤ q)
    (h2 : q < (2 : ℚ) ^ (k + 1)) : Int.log 2 q = k := by
  have a : k ≤ Int.log 2 q :=
    (@Int.zpow_le_iff_le_log ℚ _ _ 2 (by norm_num) k q hq).1 (by exact_mod_cast h1)
  have b : Int.log 2 q < k + 1 :=
    (@Int.lt_zpow_iff_log_lt ℚ _ _ 2 (by norm_num) (k + 1) q hq).1 (by exact_mod_cast h2)
  omega

theorem roundToDouble_exact (q : ℚ) (k n : ℤ) (hq : 0 < q) (h1 : (2 : ℚ) ^ k ≤ q)
    (h2 : q < (2 : ℚ) ^ (k + 1)) (hk : -1022 ≤ k) (hn : q = n * (2 : ℚ) ^ (k - 52)) :
    roundToDouble q = q := by
  have hu : ulp q = (2 : ℚ) ^ (k - 52) := by
    unfold ulp
    rw [abs_of_pos hq, log_two_eq q k hq h1 h2, max_eq_left hk]
  have hpos : (0 : ℚ) < (2 : ℚ) ^ (k - 52) := by positivity
  unfold roundToDouble
  rw [hu]
  have : q / (2 : ℚ) ^ (k - 52) = (n : ℚ) := by
    rw [hn]; field_simp
  rw [this, roundHalfEven_intCast, ← hn]

theorem roundToDouble_bounds (q : ℚ) (h0 : 0 ≤ q) (h1 : q < 1000000000) :
    0 ≤ roundToDouble q ∧ roundToDouble q ≤ 1000000000 := by
  have hu := ulp_pos q
  have hlog : Int.log 2 |q| ≤ 29 := by
    rw [abs_of_nonneg h0]
    rcases h0.eq_or_lt with h | h
    · rw [← h, Int.log_zero_right]; norm_num
    · have : Int.log 2 q < 30 :=
        (@Int.lt_zpow_iff_log_lt ℚ _ _ 2 (by norm_num) 30 q h).1 (by norm_num; linarith)
      omega
  constructor
  · unfold roundToDouble
    have : (0 : ℚ) ≤ (roundHalfEven (q / ulp q) : ℚ) := by
      exact_mod_cast roundHalfEven_nonneg _ (div_nonneg h0 hu.le)
    positivity
  · obtain ⟨m, hm⟩ : ∃ m : ℕ, -(max (Int.log 2 |q|) (-1022) - 52) = (m : ℤ) :=
      ⟨(-(max (Int.log 2 |q|) (-1022) - 52)).toNat, by
        rw [Int.toNat_of_nonneg]
        have : max (Int.log 2 |q|) (-1022) ≤ 29 := max_le hlog (by norm_num)
        omega⟩
    have hud : ulp q = ((2 : ℚ) ^ m)⁻¹ := by
      unfold ulp
      have : max (Int.log 2 |q|) (-1022) - 52 = -(m : ℤ) := by omega
      rw [this, zpow_neg, zpow_natCast]
    have hpow : (0 : ℚ) < (2 : ℚ) ^ m := by positivity
    have hle : q / ulp q ≤ ((1000000000 * 2 ^ m : ℤ) : ℚ) := by
      rw [hud, div_inv_eq_mul]
      push_cast
      exact mul_le_mul_of_nonneg_right h1.le hpow.le
    have hr := roundHalfEven_le _ _ hle
    have hr' : (roundHalfEven (q / ulp q) : ℚ) ≤ 1000000000 * 2 ^ m := by
      exact_mod_cast hr
    unfold roundToDouble
    calc (roundHalfEven (q / ulp q) : ℚ) * ulp q
        ≤ (1000000000 * 2 ^ m) * ulp q := mul_le_mul_of_nonneg_right hr' hu.le
      _ = 1000000000 := by rw [hud]; field_simp

/-! ## The extension in terms of the final component -/

theorem extnameLoop_pre_last (B X : List Char) (hB : ∀ c ∈ B, c ≠ '/') (b : Char)
    (hlast : B.getLast? = some b) (sd sp en pd : Int) (ms : Bool) (hen : en ≠ -1)
    (hsd : sd ≠ -1) :
    extnameLoop (B ++ X) ⟨sd, sp, en, ms, pd⟩
      = extnameLoop X ⟨sd, sp, en, ms, if b = '.' then 1 else -1⟩ := by
  induction B generalizing pd with
  | nil => simp at hlast
  | cons c B ih =>
    have h1 := hB c (List.mem_cons_self _ _)
    have hB' : ∀ c ∈ B, c ≠ '/' := fun c h => hB c (List.mem_cons_of_mem _ h)
    have step : extnameLoop (c :: B ++ X) ⟨sd, sp, en, ms, pd⟩
        = extnameLoop (B ++ X) ⟨sd, sp, en, ms, if c = '.' then 1 else -1⟩ := by
      by_cases hdot : c = '.'
      · subst hdot
        by_cases hpd : pd = 1
        · simp [extnameLoop, hen, hsd, hpd]
        · simp [extnameLoop, hen, hsd, hpd]
      · simp [extnameLoop, h1, hdot, hen, hsd]
    rw [step]
    cases B with
    | nil =>
      simp at hlast
      subst hlast
      rfl
    | cons d B =>
      have hl : (d :: B).getLast? = some b := by
        rw [List.getLast?_cons_cons] at hlast
        exact hlast
      exact ih hB' hl _

theorem extnameLoop_dotted_last (S A B P : List Char) (b : Char) (hS : ∀ c ∈ S, c = '/')
    (hA : ∀ c ∈ A, c ≠ '/' ∧ c ≠ '.') (hB : ∀ c ∈ B, c ≠ '/')
    (hlast : B.getLast? = some b) (hP : Stops P) :
    extnameLoop (S ++ (A ++ '.' :: (B ++ P))) extInit
        = ⟨(B.length + P.length : Nat), P.length, (A.length + 1 + B.length + P.length : Nat),
            false, if b = '.' then 1 else -1⟩ := by
  rw [extInit, extnameLoop_skip S _ hS]
  cases A with
  | nil =>
    rw [List.nil_append, extnameLoop_dot_first,
      extnameLoop_pre_last B P hB b hlast _ _ _ _ _ (by omega) (by omega),
      extnameLoop_stop P hP]
    simp
    omega
  | cons a A =>
    obtain ⟨h1, h2⟩ := hA a (List.mem_cons_self _ _)
    rw [List.cons_append, extnameLoop_first a _ h1 h2,
      extnameLoop_plain A _ (fun c h => hA c (List.mem_cons_of_mem _ h)) _ _ _ _ (by omega),
      extnameLoop_dot _ _ _ _ _ (by omega),
      extnameLoop_pre_last B P hB b hlast _ _ _ _ _ (by omega) (by omega),
      extnameLoop_stop P hP]
    simp
    omega

theorem extnameChars_eq (o : List Char) :
    extnameChars o =
      (let st := extnameLoop o.reverse extInit
       if st.startDot = -1 ∨ st.end_ = -1 ∨ st.preDotState = 0 ∨
          (st.preDotState = 1 ∧ st.startDot = st.end_ - 1 ∧ st.startDot = st.startPart + 1)
       then [] else slice o st.startDot st.end_) := rfl

theorem extnameChars_slashes (o S : List Char) (ho : o.reverse = S)
    (hS : ∀ c ∈ S, c = '/') : extnameChars o = [] := by
  have := extnameLoop_skip S [] hS (-1) 0 (-1) 0
  rw [List.append_nil] at this
  rw [extnameChars_eq, ho]
  simp only [extInit, this]
  simp [extnameLoop]

theorem extnameChars_undotted (o S C P : List Char) (ho : o.reverse = S ++ (C ++ P))
    (hS : ∀ c ∈ S, c = '/') (hC : ∀ c ∈ C, c ≠ '/' ∧ c ≠ '.') (hne : C ≠ [])
    (hP : Stops P) : extnameChars o = [] := by
  have := extnameLoop_undotted S C P hS hC hne hP
  rw [extnameChars_eq, ho]
  simp [this]

theorem extnameChars_dotted (o S A B P : List Char)
    (ho : o.reverse = S ++ (A ++ '.' :: (B ++ P)))
    (hS : ∀ c ∈ S, c = '/') (hA : ∀ c ∈ A, c ≠ '/' ∧ c ≠ '.') (hB : ∀ c ∈ B, c ≠ '/')
    (hP : Stops P) :
    extnameChars o = if B = [] ∨ (B = ['.'] ∧ A = []) then [] else '.' :: A.reverse := by
  have ho' : o = P.reverse ++ (B.reverse ++ (('.' :: A.reverse) ++ S.reverse)) := by
    have := congrArg List.reverse ho
    simpa using this
  rcases List.eq_nil_or_concat B with hB0 | ⟨B0, b, hBb⟩
  · subst hB0
    obtain ⟨pd', hloop, hpd⟩ := extnameLoop_dotted S A [] P hS hA hB hP
    rw [extnameChars_eq, ho, hloop]
    simp [hpd rfl]
  · have hlast : B.getLast? = some b := by rw [hBb]; simp
    have hBne : B ≠ [] := by rw [hBb]; simp
    have hloop := extnameLoop_dotted_last S A B P b hS hA hB hlast hP
    have hiff : (B = ['.'] ∧ A = []) ↔ (b = '.' ∧ A.length = 0 ∧ B.length = 1) := by
      constructor
      · rintro ⟨h1, h2⟩
        rw [h1] at hlast
        simp at hlast
        exact ⟨hlast.symm, by simp [h2], by simp [h1]⟩
      · rintro ⟨h1, h2, h3⟩
        refine ⟨?_, List.length_eq_zero.1 h2⟩
        have hB0 : B0 = [] := by
          rw [hBb] at h3
          simp at h3
          exact h3
        rw [hBb, hB0, h1]
        rfl
    rw [extnameChars_eq, ho, hloop]
    simp only
    by_cases hc : B = ['.'] ∧ A = []
    · rw [if_pos (Or.inr hc), if_pos]
      obtain ⟨h1, h2, h3⟩ := hiff.1 hc
      refine Or.inr (Or.inr (Or.inr ⟨by simp [h1], ?_, ?_⟩))
      · push_cast; omega
      · push_cast; omega
    · have hneg : ¬ (B = [] ∨ (B = ['.'] ∧ A = [])) := by
        rintro (h | h)
        · exact hBne h
        · exact hc h
      rw [if_neg hneg, if_neg]
      · have hsl := slice_mid (P.reverse ++ B.reverse) ('.' :: A.reverse) S.reverse
          ((B.length + P.length : Nat) : Int) ((A.length + 1 + B.length + P.length : Nat) : Int)
          (by simp; omega) (by simp; omega)
        rw [ho']
        simpa using hsl
      · rintro (h | h | h | ⟨h1, h2, h3⟩)
        · omega
        · omega
        · by_cases hb : b = '.'
          · rw [if_pos hb] at h; omega
          · rw [if_neg hb] at h; omega
        · apply hc
          apply hiff.2
          refine ⟨?_, ?_, ?_⟩
          · by_contra hb
            rw [if_neg hb] at h1
            omega
          · push_cast at h2; omega
          · push_cast at h3; omega

/-- The extension in terms of the final path component: none when the
component has no dot; otherwise the part from its last dot on, unless that dot
is its first character or the component is `..`. -/
theorem extnameChars_final (o : List Char) :
    ((∀ c ∈ basenameChars o [], c ≠ '.') → extnameChars o = []) ∧
    (∀ B A, basenameChars o [] = B ++ '.' :: A → (∀ c ∈ A, c ≠ '.') →
      extnameChars o = if B = [] ∨ (B = ['.'] ∧ A = []) then [] else '.' :: A) := by
  obtain ⟨S, R1, hR, hS, hR1⟩ := split_run (fun c => c = '/') o.reverse
  rcases hR1 with rfl | ⟨h, t, rfl, hh⟩
  · have hR' : o.reverse = S := by rw [hR, List.append_nil]
    have hloop : basenameLoop o.reverse ⟨0, -1, true, -1, -1⟩ = ⟨0, -1, true, -1, -1⟩ := by
      rw [hR, basenameLoop_skip S [] hS]; rfl
    have hb : basenameChars o [] = [] := by
      simp [basenameChars, hloop]
    refine ⟨fun _ => extnameChars_slashes o S hR' hS, ?_⟩
    intro B A hBA
    rw [hb] at hBA
    simp at hBA
  · obtain ⟨C, P, hC, hCs, hP⟩ := split_run (fun c => c ≠ '/') (h :: t)
    have hPs : Stops P := by
      rcases hP with rfl | ⟨x, y, rfl, hx⟩
      · exact Or.inl rfl
      · exact Or.inr ⟨y, by simp at hx; simp [hx]⟩
    have hCne : C ≠ [] := by
      rintro rfl
      rcases hP with rfl | ⟨x, y, rfl, hx⟩
      · simp at hC
      · simp at hC hx
        exact hh (hC.1.trans hx)
    have hrev : o.reverse = S ++ (C ++ P) := by rw [hR, hC]
    have hb := basenameChars_component o S C P hrev hS hCs hCne hPs
    rw [hb]
    constructor
    · intro hnd
      exact extnameChars_undotted o S C P hrev hS
        (fun c hc => ⟨hCs c hc, hnd c (by simpa using hc)⟩) hCne hPs
    · intro B A hBA hA
      have hCeq : C = A.reverse ++ '.' :: B.reverse := by
        have := congrArg List.reverse hBA
        simpa using this
      have hA' : ∀ c ∈ A.reverse, c ≠ '/' ∧ c ≠ '.' := by
        intro c hc
        have hcA : c ∈ A := by simpa using hc
        exact ⟨hCs c (by rw [hCeq]; exact List.mem_append_left _ hc), hA c hcA⟩
      have hB' : ∀ c ∈ B.reverse, c ≠ '/' := by
        intro c hc
        exact hCs c (by rw [hCeq]; exact List.mem_append_right _ (List.mem_cons_of_mem _ hc))
      have := extnameChars_dotted o S A.reverse B.reverse P (by rw [hrev, hCeq]; simp)
        hS hA' hB' hPs
      rw [this]
      simp

/-! ## Outcomes of deletion and inspection -/

theorem deleteUploadedFile_missing (env : Env) (fs : FileSystem) (filename : String)
    (h : fs.nodes (join [uploadsDir env, filename]) = none) :
    deleteUploadedFile env fs filename = Except.ok (false, fs) := by
  simp [deleteUploadedFile, tryCatch, existsSync, h]

theorem deleteUploadedFile_unlink_ok (env : Env) (fs fs1 : FileSystem) (filename : String)
    (h : unlinkSync fs (join [uploadsDir env, filename]) = Except.ok fs1) :
    deleteUploadedFile env fs filename = Except.ok (true, fs1) := by
  have hex : existsSync fs (join [uploadsDir env, filename]) = true := by
    unfold unlinkSync at h
    unfold existsSync
    cases hn : fs.nodes (join [uploadsDir env, filename]) with
    | none => rw [hn] at h; cases h
    | some node => rfl
  simp [deleteUploadedFile, tryCatch, hex, h]

theorem deleteUploadedFile_unlink_error (env : Env) (fs : FileSystem) (filename : String)
    (e : FsError) (h : unlinkSync fs (join [uploadsDir env, filename]) = Except.error e) :
    deleteUploadedFile env fs filename = Except.ok (false, fs) := by
  unfold deleteUploadedFile tryCatch
  by_cases hex : existsSync fs (join [uploadsDir env, filename]) = true
  · simp [hex, h]
  · simp [hex]

theorem unlinkSync_file (fs : FileSystem) (path : String) (stats : Stats)
    (h : fs.nodes path = some (FsNode.file stats)) (hu : fs.unlinkError path = none) :
    unlinkSync fs path
      = Except.ok { fs with nodes := fun q => if q = path then none else fs.nodes q } := by
  simp [unlinkSync, h, hu]

theorem getFileInfo_missing (env : Env) (fs : FileSystem) (filename : String)
    (h : fs.nodes (join [uploadsDir env, filename]) = none) :
    getFileInfo env fs filename = Except.ok none := by
  simp [getFileInfo, tryCatch, existsSync, h]

theorem getFileInfo_stat_error (env : Env) (fs : FileSystem) (filename : String)
    (e : FsError) (h : statSync fs (join [uploadsDir env, filename]) = Except.error e) :
    getFileInfo env fs filename = Except.ok none := by
  unfold getFileInfo tryCatch
  by_cases hex : existsSync fs (join [uploadsDir env, filename]) = true
  · simp [hex, h]
  · simp [hex]

theorem getFileInfo_stat_ok (env : Env) (fs : FileSystem) (filename : String)
    (stats : Stats) (h : statSync fs (join [uploadsDir env, filename]) = Except.ok stats) :
    getFileInfo env fs filename
      = Except.ok (some { filename := filename, size := stats.size,
                          createdAt := stats.birthtime, modifiedAt := stats.mtime }) := by
  have hex : existsSync fs (join [uploadsDir env, filename]) = true := by
    unfold statSync at h
    unfold existsSync
    cases hn : fs.nodes (join [uploadsDir env, filename]) with
    | none => rw [hn] at h; cases h
    | some node => rfl
  simp [getFileInfo, tryCatch, hex, h]

/-! ## Small facts used by the claims -/

theorem mem_allowedTypes (m : String) :
    m ∈ allowedTypes ↔
      (m = "application/pdf" ∨ m = "image/jpeg" ∨ m = "image/png" ∨ m = "image/jpg" ∨
        m = "application/msword" ∨
        m = "application/vnd.openxmlformats-officedocument.wordprocessingml.document" ∨
        m = "application/vnd.ms-excel" ∨
        m = "application/vnd.openxmlformats-officedocument.spreadsheetml.sheet") := by
  simp [allowedTypes]

theorem includes_append_mid (a m b : String) : includes (a ++ m ++ b) m = true := by
  simp only [includes, decide_eq_true_eq, String.data_append]
  exact ⟨a.data, b.data, rfl⟩

theorem includes_append_left (a b : String) : includes (a ++ b) a = true := by
  simp only [includes, decide_eq_true_eq, String.data_append]
  exact ⟨[], b.data, rfl⟩

/-! ## The claims -/

/-- C1: `fileFilter` accepts a declared content type exactly when it is one of
the eight allow-listed strings, compared case-sensitively; every other type is
rejected with the error `File type <m> is not allowed`, whose message
contains the rejected type. -/
theorem fileFilter_allow_list (m : String) :
    (fileFilter m = { error := none, accept := true } ↔
      (m = "application/pdf" ∨ m = "image/jpeg" ∨ m = "image/png" ∨ m = "image/jpg" ∨
        m = "application/msword" ∨
        m = "application/vnd.openxmlformats-officedocument.wordprocessingml.document" ∨
        m = "application/vnd.ms-excel" ∨
        m = "application/vnd.openxmlformats-officedocument.spreadsheetml.sheet")) ∧
    (¬ (m = "application/pdf" ∨ m = "image/jpeg" ∨ m = "image/png" ∨ m = "image/jpg" ∨
        m = "application/msword" ∨
        m = "application/vnd.openxmlformats-officedocument.wordprocessingml.document" ∨
        m = "application/vnd.ms-excel" ∨
        m = "application/vnd.openxmlformats-officedocument.spreadsheetml.sheet") →
      fileFilter m =
        { error := some { isMulterError := false, code := none,
                          message := "File type " ++ m ++ " is not allowed" },
          accept := false } ∧
      includes ("File type " ++ m ++ " is not allowed") m = true) := by
  rw [← mem_allowedTypes]
  by_cases h : m ∈ allowedTypes
  · have hc : allowedTypes.contains m = true := by simpa using h
    simp [fileFilter, hc, h]
  · have hc : allowedTypes.contains m = false := by simpa using h
    refine ⟨?_, fun _ => ⟨?_, includes_append_mid _ _ _⟩⟩
    · simp [fileFilter, hc, h]
    · simp [fileFilter, h, JsError.new]

/-- C1 at the content type `image/PNG`, which differs from an allowed one in case only. -/
theorem fileFilter_allow_list_witness :
    fileFilter "image/PNG" =
        { error := some { isMulterError := false, code := none,
                          message := "File type " ++ "image/PNG" ++ " is not allowed" },
          accept := false } ∧
      includes ("File type " ++ "image/PNG" ++ " is not allowed") "image/PNG" = true :=
  (fileFilter_allow_list "image/PNG").2 (by decide)

/-- C2: evaluation of `serveUploads` at a file of a sibling directory whose
name extends the name of the upload directory: the file is sent although its
resolved path is not the upload directory or a descendant of it, because the
check compares the resolved paths as strings. -/
theorem serveUploads_sends_sibling_file :
    uploadsDir sampleEnv = "/app/backend/uploads" ∧
    serveUploads sampleEnv (singleFile "/app/backend/uploads-old/secret.pdf")
        "../uploads-old/secret.pdf"
      = [Effect.sendFile "/app/backend/uploads-old/secret.pdf"] ∧
    isWithin (resolve sampleEnv.cwd [uploadsDir sampleEnv])
      (resolve sampleEnv.cwd [join [uploadsDir sampleEnv, "../uploads-old/secret.pdf"]])
      = false := by
  decide

/-- C3, as stated, fails: the path of `../../etc/passwd` resolves outside the
upload directory, and when nothing exists there the response is 404
`File not found`, not 403. -/
theorem serveUploads_outside_missing_is_404 :
    isWithin (resolve sampleEnv.cwd [uploadsDir sampleEnv])
      (resolve sampleEnv.cwd [join [uploadsDir sampleEnv, "../../etc/passwd"]]) = false ∧
    serveUploads sampleEnv emptyFs "../../etc/passwd"
      = [Effect.status 404, Effect.json { error := "File not found" }] ∧
    serveUploads sampleEnv emptyFs "../../etc/passwd"
      ≠ [Effect.status 403, Effect.json { error := "Access denied" }] := by
  decide

/-- C3, amended: when something exists at `join(uploadsDir, filename)` and the
resolved path does not begin with the resolved upload directory, the response
is 403 `Access denied` and no file is sent. -/
theorem serveUploads_access_denied (env : Env) (fs : FileSystem) (filename : String)
    (hex : existsSync fs (join [uploadsDir env, filename]) = true)
    (hout : startsWith (resolve env.cwd [join [uploadsDir env, filename]])
      (resolve env.cwd [uploadsDir env]) = false) :
    serveUploads env fs filename
        = [Effect.status 403, Effect.json { error := "Access denied" }] ∧
      sendsFile (serveUploads env fs filename) = false := by
  have h : serveUploads env fs filename
      = [Effect.status 403, Effect.json { error := "Access denied" }] := by
    simp [serveUploads, hex, hout]
  exact ⟨h, by rw [h]; rfl⟩

/-- C3, amended, at an existing file outside the upload directory. -/
theorem serveUploads_access_denied_witness :
    serveUploads sampleEnv (singleFile "/etc/passwd") "../../../etc/passwd"
        = [Effect.status 403, Effect.json { error := "Access denied" }] ∧
      sendsFile (serveUploads sampleEnv (singleFile "/etc/passwd") "../../../etc/passwd")
        = false :=
  serveUploads_access_denied sampleEnv (singleFile "/etc/passwd") "../../../etc/passwd"
    (by decide) (by decide)

/-- C4: `handleUploadError` is the first-match-wins table: a multer error with
code `LIMIT_FILE_SIZE`, `LIMIT_FILE_COUNT` or `LIMIT_UNEXPECTED_FILE` gets the
fixed 400 response of its row, otherwise an error whose message contains
`File type` gets a 400 response carrying that message, and any other error is
handed to `next` once, unmodified, with nothing written; a response and a call
of `next` never occur together. -/
theorem handleUploadError_table (e : JsError) :
    handleUploadError e = translateErrorTable e ∧
      (callsNext (handleUploadError e) = false ∨ handleUploadError e = [Effect.next e]) := by
  have key : handleUploadError e = translateErrorTable e := by
    unfold handleUploadError translateErrorTable includes
    by_cases hm : e.isMulterError = true
    · by_cases h1 : e.code = some "LIMIT_FILE_SIZE"
      · simp [hm, h1]
      · by_cases h2 : e.code = some "LIMIT_FILE_COUNT"
        · simp [hm, h2]
        · by_cases h3 : e.code = some "LIMIT_UNEXPECTED_FILE"
          · simp [hm, h3]
          · simp [hm, h1, h2, h3]
    · simp [hm]
  refine ⟨key, ?_⟩
  rw [key]
  unfold translateErrorTable
  split_ifs <;> simp [callsNext]

/-- C5: the error `fileFilter` produces for a content type outside the
allow-list is translated by `handleUploadError` to the 400 response
`{ error: 'File type <m> is not allowed' }` and is not passed to `next`. -/
theorem fileFilter_rejection_translated (m : String) (h : m ∉ allowedTypes) :
    ∃ err, fileFilter m = { error := some err, accept := false } ∧
      handleUploadError err =
        [Effect.status 400,
         Effect.json { error := "File type " ++ m ++ " is not allowed" }] ∧
      callsNext (handleUploadError err) = false := by
  have hc : allowedTypes.contains m = false := by simpa using h
  have hmsg : includes ("File type " ++ m ++ " is not allowed") "File type" = true := by
    have := includes_append_left "File type" (" " ++ m ++ " is not allowed")
    have e : "File type" ++ (" " ++ m ++ " is not allowed")
        = "File type " ++ m ++ " is not allowed" := by
      apply String.ext
      simp [String.data_append]
    rwa [e] at this
  have hh : handleUploadError (JsError.new ("File type " ++ m ++ " is not allowed")) =
      [Effect.status 400,
       Effect.json { error := "File type " ++ m ++ " is not allowed" }] := by
    simp [handleUploadError, JsError.new, hmsg]
  refine ⟨JsError.new ("File type " ++ m ++ " is not allowed"), ?_, hh, ?_⟩
  · simp [fileFilter, h]
  · rw [hh]; rfl

/-- C5 at the content type `text/html`. -/
theorem fileFilter_rejection_translated_witness :
    ∃ err, fileFilter "text/html" = { error := some err, accept := false } ∧
      handleUploadError err =
        [Effect.status 400,
         Effect.json { error := "File type " ++ "text/html" ++ " is not allowed" }] ∧
      callsNext (handleUploadError err) = false :=
  fileFilter_rejection_translated "text/html" (by decide)

/-- C6: the storage name is `B-<t>-<r>E` with `E = extname(o)` and
`B = basename(o, E)`; `B` followed by `E` is the final path component of `o`,
the name starts with `B` and ends with `E`; and `E` is the extension at the
last extension boundary: it is empty when the final component has no dot, and
otherwise it is the part of the final component from its last dot on, unless
that dot is its first character or the component is `..`, when it is empty. -/
theorem filename_shape (o : String) (t r : Nat) :
    filename o t r
        = basename o (extname o) ++ "-" ++ toString t ++ "-" ++ toString r ++ extname o ∧
      basename o (extname o) ++ extname o = basename o "" ∧
      IsFinalComponent o.data (basename o "").data ∧
      (basename o (extname o)).data <+: (filename o t r).data ∧
      (extname o).data <:+ (filename o t r).data ∧
      ((extname o).data = [] ∨
        ∃ A, (extname o).data = '.' :: A ∧ ∀ c ∈ A, c ≠ '/' ∧ c ≠ '.') ∧
      ((∀ c ∈ (basename o "").data, c ≠ '.') → (extname o).data = []) ∧
      (∀ B A, (basename o "").data = B ++ '.' :: A → (∀ c ∈ A, c ≠ '.') →
        (extname o).data = if B = [] ∨ (B = ['.'] ∧ A = []) then [] else '.' :: A) := by
  refine ⟨?_, ?_, ?_, ?_, ?_, ?_, ?_, ?_⟩
  · apply String.ext
    simp [filename, String.data_append]
  · apply String.ext
    simpa [basename, extname, String.data_append] using basenameChars_extnameChars o.data
  · exact basenameChars_final o.data
  · rw [filename_data, List.append_assoc]
    exact List.prefix_append _ _
  · rw [filename_data]
    exact List.suffix_append _ _
  · exact extnameChars_shape o.data
  · exact (extnameChars_final o.data).1
  · exact (extnameChars_final o.data).2

/-- C6 at `docs/report.final.pdf`, whose extension is `.pdf`; at `.bashrc`,
whose only dot is its first character; and at `archive`, which has no dot. -/
theorem filename_shape_witness :
    ((extname "docs/report.final.pdf").data = ['.', 'p', 'd', 'f'] ∧
      filename "docs/report.final.pdf" 1700000000000 500000000
        = "report.final-1700000000000-500000000.pdf" ∧
      basename "docs/report.final.pdf" (extname "docs/report.final.pdf")
          ++ extname "docs/report.final.pdf" = "report.final.pdf") ∧
    ((extname ".bashrc").data = [] ∧
      filename ".bashrc" 1700000000000 500000000 = ".bashrc-1700000000000-500000000") ∧
    ((extname "archive").data = [] ∧
      filename "archive" 1700000000000 500000000 = "archive-1700000000000-500000000") :=
  ⟨⟨((filename_shape "docs/report.final.pdf" 1700000000000 500000000).2.2.2.2.2.2.2
        ['r', 'e', 'p', 'o', 'r', 't', '.', 'f', 'i', 'n', 'a', 'l'] ['p', 'd', 'f']
        (by decide) (by decide)).trans (by decide),
     (filename_shape "docs/report.final.pdf" 1700000000000 500000000).1.trans (by decide),
     (filename_shape "docs/report.final.pdf" 1700000000000 500000000).2.1.trans (by decide)⟩,
   ⟨((filename_shape ".bashrc" 1700000000000 500000000).2.2.2.2.2.2.2
        [] ['b', 'a', 's', 'h', 'r', 'c'] (by decide) (by decide)).trans (by decide),
     (filename_shape ".bashrc" 1700000000000 500000000).1.trans (by decide)⟩,
   ⟨(filename_shape "archive" 1700000000000 500000000).2.2.2.2.2.2.1 (by decide),
     (filename_shape "archive" 1700000000000 500000000).1.trans (by decide)⟩⟩

/-- C7: when nothing exists at `join(uploadsDir, filename)`, `serveUploads`
responds 404 `File not found`, sends no file and does not call `next`,
wherever the path resolves. -/
theorem serveUploads_not_found (env : Env) (fs : FileSystem) (filename : String)
    (h : fs.nodes (join [uploadsDir env, filename]) = none) :
    serveUploads env fs filename
        = [Effect.status 404, Effect.json { error := "File not found" }] ∧
      sendsFile (serveUploads env fs filename) = false ∧
      callsNext (serveUploads env fs filename) = false := by
  have h1 : serveUploads env fs filename
      = [Effect.status 404, Effect.json { error := "File not found" }] := by
    simp [serveUploads, existsSync, h]
  exact ⟨h1, by rw [h1]; rfl, by rw [h1]; rfl⟩

/-- C7 at a name under which nothing is stored. -/
theorem serveUploads_not_found_witness :
    serveUploads sampleEnv (singleFile "/app/backend/uploads/a.pdf") "b.pdf"
        = [Effect.status 404, Effect.json { error := "File not found" }] ∧
      sendsFile (serveUploads sampleEnv (singleFile "/app/backend/uploads/a.pdf") "b.pdf")
        = false ∧
      callsNext (serveUploads sampleEnv (singleFile "/app/backend/uploads/a.pdf") "b.pdf")
        = false :=
  serveUploads_not_found sampleEnv (singleFile "/app/backend/uploads/a.pdf") "b.pdf"
    (by decide)

/-- C8, as stated, fails: a regular file exists at the joined path, the
operating system refuses its removal with `EACCES`, and `deleteUploadedFile`
returns `false` and leaves the file in place. -/
theorem deleteUploadedFile_refused_is_false :
    (protectedFile "/app/backend/uploads/a.pdf").nodes
        (join [uploadsDir sampleEnv, "a.pdf"])
      = some (FsNode.file { size := 1024, birthtime := 1, mtime := 2 }) ∧
    deleteUploadedFile sampleEnv (protectedFile "/app/backend/uploads/a.pdf") "a.pdf"
      = Except.ok (false, protectedFile "/app/backend/uploads/a.pdf") ∧
    ¬ ∃ fs1, deleteUploadedFile sampleEnv (protectedFile "/app/backend/uploads/a.pdf") "a.pdf"
      = Except.ok (true, fs1) := by
  have h := deleteUploadedFile_unlink_error sampleEnv
    (protectedFile "/app/backend/uploads/a.pdf") "a.pdf" FsError.EACCES rfl
  refine ⟨by decide, h, ?_⟩
  rintro ⟨fs1, h1⟩
  rw [h] at h1
  simp at h1

/-- C8, amended: when a regular file exists at the joined path and the
filesystem does not refuse its removal, `deleteUploadedFile` returns `true`,
the path is gone from the resulting state and `getFileInfo` of the name then
returns `null`; when nothing exists there it returns `false` and leaves the
state unchanged; when `unlinkSync` throws it returns `false` and leaves the
state unchanged; when `statSync` throws `getFileInfo` returns `null`; and
`getFileInfo` returns the stats of what exists otherwise. Neither function
raises. -/
theorem deleteUploadedFile_contract (env : Env) (fs : FileSystem) (filename : String) :
    (∀ stats, fs.nodes (join [uploadsDir env, filename]) = some (FsNode.file stats) →
      fs.unlinkError (join [uploadsDir env, filename]) = none →
      ∃ fs1, deleteUploadedFile env fs filename = Except.ok (true, fs1) ∧
        fs1.nodes (join [uploadsDir env, filename]) = none ∧
        getFileInfo env fs1 filename = Except.ok none) ∧
    (fs.nodes (join [uploadsDir env, filename]) = none →
      deleteUploadedFile env fs filename = Except.ok (false, fs) ∧
      getFileInfo env fs filename = Except.ok none) ∧
    (∀ e, unlinkSync fs (join [uploadsDir env, filename]) = Except.error e →
      deleteUploadedFile env fs filename = Except.ok (false, fs)) ∧
    (∀ e, statSync fs (join [uploadsDir env, filename]) = Except.error e →
      getFileInfo env fs filename = Except.ok none) ∧
    (∀ stats, statSync fs (join [uploadsDir env, filename]) = Except.ok stats →
      getFileInfo env fs filename
        = Except.ok (some { filename := filename, size := stats.size,
                            createdAt := stats.birthtime, modifiedAt := stats.mtime })) ∧
    (∃ result, deleteUploadedFile env fs filename = Except.ok result) ∧
    (∃ info, getFileInfo env fs filename = Except.ok info) := by
  refine ⟨?_, ?_, ?_, ?_, ?_, ?_, ?_⟩
  · intro stats h hu
    refine ⟨_, deleteUploadedFile_unlink_ok env fs _ filename (unlinkSync_file fs _ stats h hu),
      by simp, getFileInfo_missing env _ filename (by simp)⟩
  · intro h
    exact ⟨deleteUploadedFile_missing env fs filename h, getFileInfo_missing env fs filename h⟩
  · intro e h
    exact deleteUploadedFile_unlink_error env fs filename e h
  · intro e h
    exact getFileInfo_stat_error env fs filename e h
  · intro stats h
    exact getFileInfo_stat_ok env fs filename stats h
  · cases hu : unlinkSync fs (join [uploadsDir env, filename]) with
    | error e => exact ⟨_, deleteUploadedFile_unlink_error env fs filename e hu⟩
    | ok fs1 => exact ⟨_, deleteUploadedFile_unlink_ok env fs fs1 filename hu⟩
  · cases hs : statSync fs (join [uploadsDir env, filename]) with
    | error e => exact ⟨_, getFileInfo_stat_error env fs filename e hs⟩
    | ok stats => exact ⟨_, getFileInfo_stat_ok env fs filename stats hs⟩

/-- C8, amended, at a stored file, at a name under which nothing is stored, at
a file whose removal is refused, and at a file whose stats cannot be read. -/
theorem deleteUploadedFile_contract_witness :
    (∃ fs1, deleteUploadedFile sampleEnv (singleFile "/app/backend/uploads/a.pdf") "a.pdf"
        = Except.ok (true, fs1) ∧
      fs1.nodes (join [uploadsDir sampleEnv, "a.pdf"]) = none ∧
      getFileInfo sampleEnv fs1 "a.pdf" = Except.ok none) ∧
    (deleteUploadedFile sampleEnv emptyFs "a.pdf" = Except.ok (false, emptyFs) ∧
      getFileInfo sampleEnv emptyFs "a.pdf" = Except.ok none) ∧
    deleteUploadedFile sampleEnv (protectedFile "/app/backend/uploads/a.pdf") "a.pdf"
      = Except.ok (false, protectedFile "/app/backend/uploads/a.pdf") ∧
    getFileInfo sampleEnv (unreadableFile "/app/backend/uploads/a.pdf") "a.pdf"
      = Except.ok none ∧
    getFileInfo sampleEnv (singleFile "/app/backend/uploads/a.pdf") "a.pdf"
      = Except.ok (some { filename := "a.pdf", size := 1024, createdAt := 1,
                          modifiedAt := 2 }) :=
  ⟨(deleteUploadedFile_contract sampleEnv (singleFile "/app/backend/uploads/a.pdf")
      "a.pdf").1 { size := 1024, birthtime := 1, mtime := 2 } (by decide) (by decide),
   (deleteUploadedFile_contract sampleEnv emptyFs "a.pdf").2.1 (by decide),
   (deleteUploadedFile_contract sampleEnv (protectedFile "/app/backend/uploads/a.pdf")
      "a.pdf").2.2.1 FsError.EACCES rfl,
   (deleteUploadedFile_contract sampleEnv (unreadableFile "/app/backend/uploads/a.pdf")
      "a.pdf").2.2.2.1 FsError.EOVERFLOW rfl,
   (deleteUploadedFile_contract sampleEnv (singleFile "/app/backend/uploads/a.pdf")
      "a.pdf").2.2.2.2.1 { size := 1024, birthtime := 1, mtime := 2 } rfl⟩

/-- C9, as stated, fails: the binary64 value `1 - 2^-31` of `Math.random()` lies
in `[0, 1)`, and for it the random component is `1000000000`, which is not
below `1000000000`. -/
theorem randomSuffix_reaches_1e9 :
    roundToDouble (2147483647 / 2147483648) = 2147483647 / 2147483648 ∧
    (0 : ℚ) ≤ 2147483647 / 2147483648 ∧ (2147483647 / 2147483648 : ℚ) < 1 ∧
    randomSuffix (2147483647 / 2147483648) = 1000000000 ∧
    ¬ (randomSuffix (2147483647 / 2147483648) < 1000000000) := by
  have hx : roundToDouble (2147483647 / 2147483648) = 2147483647 / 2147483648 :=
    roundToDouble_exact _ (-1) (2147483647 * 2 ^ 22) (by norm_num) (by norm_num)
      (by norm_num) (by norm_num) (by norm_num)
  have hp : roundToDouble (2147483647 / 2147483648 * 1000000000)
      = 2147483647 / 2147483648 * 1000000000 :=
    roundToDouble_exact _ 29 (2147483647 * 1953125 * 2) (by norm_num) (by norm_num)
      (by norm_num) (by norm_num) (by norm_num)
  have hr : randomSuffix (2147483647 / 2147483648) = 1000000000 := by
    unfold randomSuffix mathRound
    rw [hp, Int.floor_eq_iff]
    constructor <;> norm_num
  refine ⟨hx, by norm_num, by norm_num, hr, ?_⟩
  rw [hr]
  norm_num

/-- C9, amended: for every value `x` in `[0, 1)` of the random source, the
random component is an integer between `0` and `1000000000`, both included. -/
theorem randomSuffix_range (x : ℚ) (h0 : 0 ≤ x) (h1 : x < 1) :
    0 ≤ randomSuffix x ∧ randomSuffix x ≤ 1000000000 := by
  obtain ⟨hb0, hb1⟩ := roundToDouble_bounds (x * 1000000000) (by positivity) (by linarith)
  unfold randomSuffix mathRound
  constructor
  · exact Int.floor_nonneg.2 (by linarith)
  · have : ⌊roundToDouble (x * 1000000000) + 1 / 2⌋ < 1000000000 + 1 := by
      rw [Int.floor_lt]
      push_cast
      linarith
    omega

/-- C9, amended, at the value `0.5` of the random source. -/
theorem randomSuffix_range_witness :
    0 ≤ randomSuffix (1 / 2) ∧ randomSuffix (1 / 2) ≤ 1000000000 :=
  randomSuffix_range (1 / 2) (by norm_num) (by norm_num)

/-- C10: for a fixed original name, the storage names built from two pairs of
timestamp and random integer are equal exactly when the pairs are equal. -/
theorem filename_injective (o : String) (t1 r1 t2 r2 : Nat) :
    filename o t1 r1 = filename o t2 r2 ↔ t1 = t2 ∧ r1 = r2 := by
  constructor
  · intro h
    have hd := congrArg String.data h
    rw [filename_data, filename_data] at hd
    have h1 := List.append_cancel_right hd
    have h2 := List.append_cancel_left h1
    simp only [List.cons.injEq, true_and] at h2
    obtain ⟨ht, hr⟩ := append_cons_unique '-' _ _ _ _ (toString_no_dash t1)
      (toString_no_dash t2) h2
    exact ⟨toString_data_injective _ _ ht, toString_data_injective _ _ hr⟩
  · rintro ⟨rfl, rfl⟩
    rfl

end Upload
